import Mathlib

/-!
Verification of the PromptDec retrieval core: semantic search over embedding
vectors, the TTL embedding cache, and the deck interchange (serialize /
deserialize / import) subsystem.

The search and cache functions are shallow embeddings of the TypeScript
functions `semanticSearch`, `cosineSimilarity`, `getCachedEmbedding` and
`cacheEmbedding` found in the repository.  JavaScript numbers are modelled
by exact rationals together with an explicit NaN (and, for division by
zero, signed infinities): rounding is not modelled, but NaN propagation,
out-of-range array indexing (`undefined`), and the comparison semantics of
NaN are modelled faithfully, since the claims under study depend on them.
-/

namespace PromptDec

/-- A JavaScript numeric value as it occurs inside the dot-product loop:
either an exact finite value or NaN (produced by `x * undefined`).
Arithmetic is exact on finite values; NaN propagates through `+` and `*`,
as in IEEE-754. -/
inductive JNum where
  | nan : JNum
  | val (q : ℚ) : JNum
deriving DecidableEq

instance : Add JNum :=
  ⟨fun a b => match a, b with
    | .val x, .val y => .val (x + y)
    | _, _ => .nan⟩

instance : Mul JNum :=
  ⟨fun a b => match a, b with
    | .val x, .val y => .val (x * y)
    | _, _ => .nan⟩

@[simp] theorem JNum.nan_add (b : JNum) : JNum.nan + b = JNum.nan := rfl

@[simp] theorem JNum.val_add (x y : ℚ) : JNum.val x + JNum.val y = JNum.val (x + y) := rfl

@[simp] theorem JNum.val_mul (x y : ℚ) : JNum.val x * JNum.val y = JNum.val (x * y) := rfl

@[simp] theorem JNum.add_nan (a : JNum) : a + JNum.nan = JNum.nan := by
  cases a <;> rfl

@[simp] theorem JNum.mul_nan (a : JNum) : a * JNum.nan = JNum.nan := by
  cases a <;> rfl

@[simp] theorem JNum.nan_mul (b : JNum) : JNum.nan * b = JNum.nan := by
  cases b <;> rfl

/-- JavaScript array indexing `b[i]`: the element when `i` is in range,
`undefined` otherwise.  Inside arithmetic, `undefined` behaves as NaN. -/
def jsGet (b : List ℚ) (i : ℕ) : JNum :=
  match b[i]? with
  | some q => .val q
  | none => .nan

/-- The dot-product loop of `cosineSimilarity`:
`a.reduce((sum, x, i) => sum + x * b[i], 0)`.
It iterates over the indices of `a` and reads `b[i]`, which is
`undefined` (hence NaN) when `b` is shorter than `a`. -/
def dotJ (a b : List ℚ) : JNum :=
  (List.range a.length).foldl (fun sum i => sum + .val (a.getD i 0) * jsGet b i) (.val 0)

/-- Mathematical value of the dot product over the indices of `a`,
used to state what `dotJ` computes when no NaN arises. -/
def dotQ (a b : List ℚ) : ℚ :=
  ∑ i ∈ Finset.range a.length, a.getD i 0 * b.getD i 0

/-- Sum of squares `v.reduce((sum, x) => sum + x * x, 0)`.  The reduce only
reads the array's own elements, so no NaN can arise and the result is a
plain rational. -/
def sumSq (v : List ℚ) : ℚ :=
  (v.map fun x => x * x).sum

/-- The value returned by `cosineSimilarity`: NaN, a signed infinity
(IEEE division of a nonzero value by zero), or the finite real value
`dot / Math.sqrt s` represented by the pair `(dot, s)`, where
`s = sumSq a * sumSq b` (so `Math.sqrt (sumSq a) * Math.sqrt (sumSq b) =
Math.sqrt s` exactly). -/
inductive Score where
  | nan : Score
  | inf : Score
  | ninf : Score
  | fin (dot : ℚ) (s : ℚ) : Score
deriving DecidableEq

/-- The defensive cosine similarity from the repository:

dot over the indices of `a` with `b[i]` lookups, full magnitudes of both
vectors, quotient `dot / (magA * magB)`.  Division by a zero magnitude
follows IEEE: `0 / 0` is NaN, `d / 0` for nonzero `d` is a signed
infinity. -/
def cosineSimilarity (a b : List ℚ) : Score :=
  match dotJ a b with
  | .nan => .nan
  | .val d =>
    let s := sumSq a * sumSq b
    if s = 0 then (if d = 0 then .nan else if 0 < d then .inf else .ninf)
    else .fin d s

/-- The JavaScript comparison `score > t` for a finite threshold `t`:
false for NaN, true for `+Infinity`, false for `-Infinity`, and for a
finite score `d / √s` decided by exact sign analysis and squaring. -/
def Score.gtQ : Score → ℚ → Bool
  | .nan, _ => false
  | .inf, _ => true
  | .ninf, _ => false
  | .fin d s, t =>
    if 0 ≤ t then decide (0 < d) && decide (t * t * s < d * d)
    else decide (0 ≤ d) || decide (d * d < t * t * s)

/-- Class index used to order `Score` values for sorting: `+Infinity`
first, finite values next, then `-Infinity`; NaN is placed last (NaN never
reaches the sort, because the filter `similarity > threshold` discards
it). -/
def Score.cls : Score → ℕ
  | .inf => 0
  | .fin _ _ => 1
  | .ninf => 2
  | .nan => 3

/-- Signed square, the strictly monotone rational image of `d ↦ d / √s`
used to compare finite scores exactly: `sgnSq d / s` has the same order as
`d / √s` for `s > 0`. -/
def sgnSq (d : ℚ) : ℚ :=
  if 0 ≤ d then d * d else -(d * d)

/-- Rational sort key of a finite score: strictly monotone in the real
value `d / √s` (for the `s > 0` produced by `cosineSimilarity`). -/
def Score.key : Score → ℚ
  | .fin d s => sgnSq d / s
  | _ => 0

/-- Sort relation for the comparator `(a, b) => b.similarity - a.similarity`
of a stable JavaScript sort: `x` may stay before `y` exactly when the value
of `x` is at least the value of `y` (descending order, ties keep input
order). -/
def Score.before (x y : Score) : Bool :=
  decide (x.cls < y.cls) || (decide (x.cls = y.cls) && decide (y.key ≤ x.key))

/-- The slice of a card that the search touches: its id and the
JSON-parsed `content_embedding` vector. -/
structure Card where
  id : String
  content_embedding : List ℚ
deriving DecidableEq

/-- The repository's `semanticSearch(query, cards, threshold = 0.6)`:
embed the query (the external embedding model is the function argument
`g`), score every card with `cosineSimilarity`, keep scores strictly above
the threshold, sort descending by score with a stable sort, and return the
cards.  There is no limit parameter. -/
def semanticSearch (g : String → List ℚ) (query : String) (cards : List Card)
    (threshold : ℚ) : List Card :=
  let queryEmbedding := g query
  let results :=
    ((cards.map fun card => (card, cosineSimilarity queryEmbedding card.content_embedding)).filter
        fun r => r.2.gtQ threshold).mergeSort
      fun a b => Score.before a.2 b.2
  results.map fun r => r.1

/-- ECMAScript `Array.prototype.map`: allocates a fresh array, leaves the
receiver untouched.  Returned as (result, receiver after the call). -/
def jsMapArr {α β : Type} (f : α → β) (arr : List α) : List β × List α :=
  (arr.map f, arr)

/-- ECMAScript `Array.prototype.filter`: allocates a fresh array, leaves
the receiver untouched. -/
def jsFilterArr {α : Type} (p : α → Bool) (arr : List α) : List α × List α :=
  (arr.filter p, arr)

/-- ECMAScript `Array.prototype.sort`: sorts the receiver in place and
returns it, so the receiver after the call is the sorted array. -/
def jsSortArr {α : Type} (r : α → α → Bool) (arr : List α) : List α × List α :=
  (arr.mergeSort r, arr.mergeSort r)

/-- `semanticSearch` with the mutation behaviour of every array operation
tracked: returns the search result together with the candidates array as
it stands after the call. -/
def semanticSearchTracked (g : String → List ℚ) (query : String) (cards : List Card)
    (threshold : ℚ) : List Card × List Card :=
  let queryEmbedding := g query
  let (mapped, cardsAfter) :=
    jsMapArr (fun card => (card, cosineSimilarity queryEmbedding card.content_embedding)) cards
  let (filtered, _) := jsFilterArr (fun r => r.2.gtQ threshold) mapped
  let (sorted, _) := jsSortArr (fun a b => Score.before a.2 b.2) filtered
  let (out, _) := jsMapArr (fun r : Card × Score => r.1) sorted
  (out, cardsAfter)

/-! ## Embedding cache -/

/-- One entry of `embeddingCache`: the vector, the `Date.now()` creation
timestamp in milliseconds, and the TTL in seconds. -/
structure CacheEntry where
  embedding : List ℚ
  timestamp : ℤ
  ttl : ℤ
deriving DecidableEq

/-- The cache object, a string-keyed map modelled as an association list
with unique keys. -/
abbrev Cache : Type := List (String × CacheEntry)

/-- JavaScript `delete obj[k]`: removes the binding for `k` (a no-op when
the key is absent). -/
def eraseKey (cache : Cache) (k : String) : Cache :=
  cache.filter fun p => !(p.1 == k)

/-- Collapse every run of whitespace characters to a single space. -/
def collapseWS : List Char → List Char
  | [] => []
  | [c] => if c.isWhitespace then [' '] else [c]
  | c1 :: c2 :: rest =>
    if c1.isWhitespace && c2.isWhitespace then collapseWS (c2 :: rest)
    else (if c1.isWhitespace then ' ' else c1) :: collapseWS (c2 :: rest)

/-- Strip leading and trailing whitespace. -/
def trimWS (l : List Char) : List Char :=
  ((l.dropWhile Char.isWhitespace).reverse.dropWhile Char.isWhitespace).reverse

/-- Modelled from the spec: the text normalization feeding the cache key —
"normalizing text (trim, case-fold, collapse whitespace)".  Not present in
the repository sources. -/
def normalizeText (s : String) : String :=
  ⟨collapseWS ((trimWS s.data).map Char.toLower)⟩

/-- Modelled from the spec: `hashText`, which the repository calls but
never defines, is "normalizing text (trim, case-fold, collapse whitespace)
then hashing".  The digest is modelled as the normalized text itself, an
injective stand-in for a collision-free hash. -/
def hashText (text : String) : String :=
  normalizeText text

/-- The repository's `getCachedEmbedding(text)`, with the ambient cache and
`Date.now()` passed explicitly: a fresh entry (age strictly below
`ttl * 1000` milliseconds) is returned with the cache untouched; otherwise
the entry is deleted (a no-op when absent) and `null` is returned. -/
def getCachedEmbedding (cache : Cache) (now : ℤ) (text : String) :
    Option (List ℚ) × Cache :=
  let hash := hashText text
  match cache.lookup hash with
  | some cached =>
    if now - cached.timestamp < cached.ttl * 1000 then (some cached.embedding, cache)
    else (none, eraseKey cache hash)
  | none => (none, eraseKey cache hash)

/-- The repository's `cacheEmbedding(text, embedding)`: store the vector
under the hashed key with the current timestamp and a 24-hour TTL,
replacing any previous binding for that key.  Nothing else is touched: no
capacity check, no eviction of other entries. -/
def cacheEmbedding (cache : Cache) (now : ℤ) (text : String) (embedding : List ℚ) : Cache :=
  (hashText text, ⟨embedding, now, 24 * 60 * 60⟩) :: eraseKey cache (hashText text)

/-! ## Interchange document, serializer and import

The repository only plans the serializer (`utils/deckSerializer.ts`) and
the import endpoint (`POST /github/import`); no implementation exists in
the sources, so the definitions below are modelled from the spec: the §6
wire format, the §4.4 SyncSerializer contract and the §7
`MalformedDocument` error. -/

/-- Deck metadata carried by the interchange document. -/
structure Deck where
  name : String
  description : String
deriving DecidableEq

/-- A stored embedding vector, in whichever representation the backend
uses: the authoritative textual (JSON) representation, or a native
fixed-width vector column (pgvector). -/
inductive BackendVector where
  | text (v : List ℚ) : BackendVector
  | native (v : List ℚ) : BackendVector
deriving DecidableEq

/-- The plain numeric content of a stored embedding, independent of its
backend representation. -/
def BackendVector.toPlain : BackendVector → List ℚ
  | .text v => v
  | .native v => v

/-- A stored card as the sync subsystem sees it; `contentEmbedding` is
absent for cards that still need (re-)embedding. -/
structure SyncCard where
  id : String
  frontTitle : String
  backContent : String
  tags : List String
  favorite : Bool
  contentEmbedding : Option BackendVector
deriving DecidableEq

/-- A card record of the interchange document: the embedding is a plain
numeric array or null, never a backend-native representation. -/
structure CardRecord where
  id : String
  frontTitle : String
  backContent : String
  tags : List String
  favorite : Bool
  embedding : Option (List ℚ)
deriving DecidableEq

/-- The canonical interchange document of one deck (wire format of §6). -/
structure InterchangeDocument where
  formatVersion : ℕ
  name : String
  description : String
  cards : List CardRecord
deriving DecidableEq

/-- Modelled from the spec: `serialize(deck, cards)`.  Cards keep their
order; every embedding is emitted as a plain numeric array (or null when
absent), whatever representation the backend stored. -/
def serialize (deck : Deck) (cards : List SyncCard) : InterchangeDocument where
  formatVersion := 1
  name := deck.name
  description := deck.description
  cards := cards.map fun c =>
    { id := c.id
      frontTitle := c.frontTitle
      backContent := c.backContent
      tags := c.tags
      favorite := c.favorite
      embedding := c.contentEmbedding.map BackendVector.toPlain }

/-- Modelled from the spec: `deserialize(doc)`.  Cards keep their order; a
present embedding is stored in the authoritative textual representation; an
absent embedding leaves the card without one, marking it as needing
re-embedding (no failure). -/
def deserialize (doc : InterchangeDocument) : Deck × List SyncCard :=
  (⟨doc.name, doc.description⟩,
    doc.cards.map fun r =>
      { id := r.id
        frontTitle := r.frontTitle
        backContent := r.backContent
        tags := r.tags
        favorite := r.favorite
        contentEmbedding := r.embedding.map BackendVector.text })

/-- A JSON value, as the import endpoint receives it. -/
inductive Json where
  | null : Json
  | bool (b : Bool) : Json
  | num (q : ℚ) : Json
  | str (s : String) : Json
  | arr (elems : List Json) : Json
  | obj (fields : List (String × Json)) : Json

/-- Field lookup in a JSON object. -/
def getField (fields : List (String × Json)) (k : String) : Option Json :=
  fields.lookup k

/-- Schema check: a JSON string. -/
def asStr : Json → Option String
  | .str s => some s
  | _ => none

/-- Schema check: a JSON boolean. -/
def asBool : Json → Option Bool
  | .bool b => some b
  | _ => none

/-- Schema check: a JSON number. -/
def asNum : Json → Option ℚ
  | .num q => some q
  | _ => none

/-- Schema check: a JSON number that is a natural number. -/
def asNat : Json → Option ℕ
  | .num q => if q.den = 1 ∧ 0 ≤ q.num then some q.num.toNat else none
  | _ => none

/-- Schema check: an array of strings. -/
def asStrList : Json → Option (List String)
  | .arr es => es.mapM asStr
  | _ => none

/-- Schema check for the `embedding` field: null (or an absent field,
handled by the caller) means no embedding; otherwise a plain numeric
array is required. -/
def asEmbedding : Json → Option (Option (List ℚ))
  | .null => some none
  | .arr es => (es.mapM asNum).map some
  | _ => none

/-- Modelled from the spec: schema validation of one card record of the
§6 wire format. -/
def parseCard (j : Json) : Option CardRecord := do
  let o ← (match j with | .obj fields => some fields | _ => none)
  let id ← getField o "id" >>= asStr
  let frontTitle ← getField o "frontTitle" >>= asStr
  let backContent ← getField o "backContent" >>= asStr
  let tags ← getField o "tags" >>= asStrList
  let favorite ← getField o "favorite" >>= asBool
  let embedding ← (match getField o "embedding" with
    | none => some none
    | some e => asEmbedding e)
  pure ⟨id, frontTitle, backContent, tags, favorite, embedding⟩

/-- Modelled from the spec: schema validation of a whole interchange
document; any missing or ill-typed field anywhere makes the whole
document malformed. -/
def parseDoc (j : Json) : Option InterchangeDocument := do
  let o ← (match j with | .obj fields => some fields | _ => none)
  let formatVersion ← getField o "formatVersion" >>= asNat
  let name ← getField o "name" >>= asStr
  let description ← getField o "description" >>= asStr
  let cardsJson ← (match getField o "cards" with
    | some (.arr es) => some es
    | _ => none)
  let cards ← cardsJson.mapM parseCard
  pure ⟨formatVersion, name, description, cards⟩

/-- The local store the import endpoint writes to. -/
structure Store where
  nextId : ℕ
  decks : List (ℕ × Deck)
  cards : List (ℕ × SyncCard)
deriving DecidableEq

/-- Create a deck row, returning the new store and the fresh deck id. -/
def createDeck (st : Store) (d : Deck) : Store × ℕ :=
  ({ st with nextId := st.nextId + 1, decks := (st.nextId, d) :: st.decks }, st.nextId)

/-- Create a card row owned by the given deck. -/
def createCard (st : Store) (deckId : ℕ) (c : SyncCard) : Store :=
  { st with cards := (deckId, c) :: st.cards }

/-- Import failure taxonomy (§7). -/
inductive ImportError where
  | malformedDocument : ImportError
deriving DecidableEq

/-- Modelled from the spec: the `POST /github/import` route.  The fetched
document is schema-validated first; a malformed document is rejected with
`MalformedDocument` before any store write, otherwise the deck and all its
cards are created.  Returns the store after the request together with the
outcome. -/
def importRoute (st : Store) (j : Json) : Store × Except ImportError ℕ :=
  match parseDoc j with
  | none => (st, .error .malformedDocument)
  | some doc =>
    let (deck, cards) := deserialize doc
    let (st1, deckId) := createDeck st deck
    (cards.foldl (fun s c => createCard s deckId c) st1, .ok deckId)

/-- A well-formed card object of the §6 wire format, used as concrete
test data. -/
def goodCardJson : Json :=
  .obj [("id", .str "1"), ("frontTitle", .str "f"), ("backContent", .str "b"),
    ("tags", .arr []), ("favorite", .bool true), ("embedding", .null)]

/-- A card object missing the required `backContent` field. -/
def badCardJson : Json :=
  .obj [("id", .str "2")]

/-- An interchange document that fails schema validation: its first card
is valid but its second card is malformed. -/
def partiallyValidDocJson : Json :=
  .obj [("formatVersion", .num 1), ("name", .str "n"), ("description", .str "d"),
    ("cards", .arr [goodCardJson, badCardJson])]

/-! ## Cache lemmas and claims C4, C6, C7 -/

theorem lookup_eraseKey (cache : Cache) (k q : String) :
    (eraseKey cache k).lookup q = if q = k then none else cache.lookup q := by
  induction cache with
  | nil => simp [eraseKey]
  | cons p rest ih =>
    obtain ⟨a, b⟩ := p
    simp only [eraseKey, List.filter_cons] at ih ⊢
    rcases eq_or_ne a k with hak | hak
    · rw [if_neg (by simp [hak]), ih]
      rcases eq_or_ne q k with hqk | hqk
      · simp [hqk]
      · have hqa : (q == a) = false := by
          simp [show q ≠ a from fun hc => hqk (hc.trans hak)]
        simp [hqk, List.lookup_cons, hqa]
    · rw [if_pos (by simp [hak])]
      rcases eq_or_ne q a with hqa | hqa
      · have hqk : q ≠ k := fun hc => hak ((hqa.symm.trans hc) ▸ rfl)
        simp [List.lookup_cons, hqa, hqk, hak]
      · have hqab : (q == a) = false := by simp [hqa]
        simp [List.lookup_cons, hqab, ih]

theorem eraseKey_of_lookup_none (cache : Cache) (k : String)
    (h : cache.lookup k = none) : eraseKey cache k = cache := by
  refine List.filter_eq_self.mpr fun p hp => ?_
  have hk := List.lookup_eq_none_iff.mp h p hp
  simp only [bne_iff_ne, ne_eq] at hk
  have hne : p.1 ≠ k := fun hc => hk hc.symm
  simp [hne]

theorem length_eraseKey_nodup (cache : Cache) (k : String)
    (hnd : (cache.map Prod.fst).Nodup) :
    (eraseKey cache k).length =
      if (cache.lookup k).isSome then cache.length - 1 else cache.length := by
  induction cache with
  | nil => simp [eraseKey]
  | cons p rest ih =>
    obtain ⟨a, b⟩ := p
    simp only [List.map_cons, List.nodup_cons] at hnd
    obtain ⟨hp, hrest⟩ := hnd
    simp only [eraseKey, List.filter_cons] at ih ⊢
    rcases eq_or_ne a k with hak | hak
    · rw [if_neg (by simp [hak])]
      have hnone : rest.lookup k = none := by
        rw [List.lookup_eq_none_iff]
        intro q hq
        simp only [bne_iff_ne, ne_eq]
        intro hc
        apply hp
        rw [hak, hc]
        exact List.mem_map_of_mem Prod.fst hq
      have hkeep : List.filter (fun p => !(p.1 == k)) rest = rest := by
        simpa [eraseKey] using eraseKey_of_lookup_none rest k hnone
      rw [hkeep]
      simp [List.lookup_cons, hak]
    · rw [if_pos (by simp [hak])]
      have hka : (k == a) = false := beq_eq_false_iff_ne.mpr (Ne.symm hak)
      rw [List.length_cons, ih hrest]
      have hlc : ((a, b) :: rest).lookup k = rest.lookup k := by
        simp [List.lookup_cons, hka]
      rw [hlc]
      rcases hsome : (rest.lookup k).isSome with hv | hv
      · simp [List.length_cons]
      · have hne : rest ≠ [] := by
          intro hc
          rw [hc] at hsome
          simp at hsome
        have hlen : 1 ≤ rest.length := List.length_pos.mpr hne
        simp only [hsome, if_true, List.length_cons]
        omega

/-- C4: the claim, as stated, fails at the expiry boundary.  An entry with
TTL 1 second read at age exactly 1000 milliseconds has an age that does not
exceed its TTL, so by the claim the get should hit and leave the cache
unchanged; the code treats it as a miss and removes the entry. -/
theorem getCachedEmbedding_boundary_cex :
    getCachedEmbedding [(hashText "t", ⟨[1], 0, 1⟩)] 1000 "t" = (none, []) ∧
    ¬((1000 : ℤ) - 0 > 1 * 1000) := by
  constructor
  · decide
  · decide

/-- C4 (amended): a get on an entry whose age is at least `ttl * 1000`
milliseconds (boundary included) is a miss and removes the entry, while a
get on an entry with age strictly below the TTL returns the stored vector
and leaves the cache unchanged. -/
theorem getCachedEmbedding_ttl (cache : Cache) (now : ℤ) (text : String) (e : CacheEntry)
    (hlk : cache.lookup (hashText text) = some e) :
    (e.ttl * 1000 ≤ now - e.timestamp →
        getCachedEmbedding cache now text = (none, eraseKey cache (hashText text)) ∧
        (eraseKey cache (hashText text)).lookup (hashText text) = none) ∧
    (now - e.timestamp < e.ttl * 1000 →
        getCachedEmbedding cache now text = (some e.embedding, cache)) := by
  constructor
  · intro h
    refine ⟨?_, by rw [lookup_eraseKey]; simp⟩
    simp only [getCachedEmbedding, hlk]
    rw [if_neg (by omega)]
  · intro h
    simp only [getCachedEmbedding, hlk]
    rw [if_pos h]

/-- Witness for `getCachedEmbedding_ttl` at a concrete expired entry. -/
theorem getCachedEmbedding_ttl_witness :
    (([("t", ⟨[1], (0 : ℤ), 1⟩)] : Cache).lookup (hashText "t") = some ⟨[1], 0, 1⟩) ∧
    getCachedEmbedding [("t", ⟨[1], 0, 1⟩)] 5000 "t" =
      (none, eraseKey [("t", ⟨[1], 0, 1⟩)] (hashText "t")) :=
  ⟨by decide, ((getCachedEmbedding_ttl [("t", ⟨[1], 0, 1⟩)] 5000 "t" ⟨[1], 0, 1⟩
      (by decide)).1 (by decide)).1⟩

/-- C6: texts equal after normalization share one cache key, so a put for
one followed by a get for the other (within the 24-hour TTL) is a hit. -/
theorem cache_normalized_hit (t1 t2 : String) (v : List ℚ) (cache : Cache) (now now2 : ℤ)
    (hn : normalizeText t1 = normalizeText t2)
    (hfresh : now2 - now < 24 * 60 * 60 * 1000) :
    hashText t1 = hashText t2 ∧
    (getCachedEmbedding (cacheEmbedding cache now t1 v) now2 t2).1 = some v := by
  have hh : hashText t1 = hashText t2 := by simpa [hashText] using hn
  refine ⟨hh, ?_⟩
  simp only [getCachedEmbedding, cacheEmbedding, ← hh, List.lookup_cons_self]
  rw [if_pos (by omega)]

/-- Witness for `cache_normalized_hit`: two formattings of the same text. -/
theorem cache_normalized_hit_witness :
    (normalizeText "  Baking  Bread " = normalizeText "baking bread" ∧
      ((5 : ℤ) - 0 < 24 * 60 * 60 * 1000)) ∧
    (hashText "  Baking  Bread " = hashText "baking bread" ∧
      (getCachedEmbedding (cacheEmbedding [] 0 "  Baking  Bread " [1]) 5 "baking bread").1 =
        some [1]) :=
  ⟨⟨by decide, by decide⟩,
    cache_normalized_hit "  Baking  Bread " "baking bread" [1] [] 0 5 (by decide) (by decide)⟩

/-- C7: the claim, as stated, fails: `cacheEmbedding` has no capacity
bound and never evicts.  Three puts of distinct texts leave all three
entries resident, so the size exceeds any bound below three. -/
theorem cacheEmbedding_unbounded_cex :
    (cacheEmbedding (cacheEmbedding (cacheEmbedding [] 0 "a" [1]) 1 "b" [1]) 2 "c" [1]).length
        = 3 ∧
    ((cacheEmbedding (cacheEmbedding (cacheEmbedding [] 0 "a" [1]) 1 "b" [1]) 2 "c" [1]).lookup
        (hashText "a")).isSome = true ∧
    ((cacheEmbedding (cacheEmbedding (cacheEmbedding [] 0 "a" [1]) 1 "b" [1]) 2 "c" [1]).lookup
        (hashText "b")).isSome = true ∧
    ((cacheEmbedding (cacheEmbedding (cacheEmbedding [] 0 "a" [1]) 1 "b" [1]) 2 "c" [1]).lookup
        (hashText "c")).isSome = true := by
  refine ⟨by decide, by decide, by decide, by decide⟩

/-- C7 (amended): a put inserts or replaces only its own key — the entry
count grows by one for every new key, no other entry is ever removed, and
no capacity bound or LRU eviction exists; the only eviction in the code is
the lazy TTL eviction performed by `getCachedEmbedding`. -/
theorem cacheEmbedding_no_capacity (cache : Cache) (now : ℤ) (text : String)
    (embedding : List ℚ) (hnd : (cache.map Prod.fst).Nodup) :
    ((cacheEmbedding cache now text embedding).length =
        if (cache.lookup (hashText text)).isSome then cache.length else cache.length + 1) ∧
    (∀ k, k ≠ hashText text →
        (cacheEmbedding cache now text embedding).lookup k = cache.lookup k) := by
  constructor
  · simp only [cacheEmbedding, List.length_cons]
    rw [show (eraseKey cache (hashText text)).length = _ from
      length_eraseKey_nodup cache (hashText text) hnd]
    rcases hsome : (cache.lookup (hashText text)).isSome with hv | hv
    · simp
    · have : cache ≠ [] := by
        intro hc
        rw [hc] at hsome
        simp at hsome
      have : 1 ≤ cache.length := List.length_pos.mpr this
      simp only [hsome, if_true]
      omega
  · intro k hk
    simp only [cacheEmbedding, List.lookup_cons]
    have hne : (k == hashText text) = false := by simp [hk]
    rw [hne]
    simp [lookup_eraseKey, hk]

/-- Witness for `cacheEmbedding_no_capacity` at a one-entry cache. -/
theorem cacheEmbedding_no_capacity_witness :
    (([("k", ⟨[1], (0 : ℤ), 86400⟩)] : Cache).map Prod.fst).Nodup ∧
    (cacheEmbedding [("k", ⟨[1], 0, 86400⟩)] 5 "x" [2]).length = 2 :=
  ⟨by decide, by
    rw [(cacheEmbedding_no_capacity [("k", ⟨[1], 0, 86400⟩)] 5 "x" [2] (by decide)).1]
    decide⟩

/-! ## Serializer claims C3, C5 and import claim C8 -/

/-- C3: deserializing the interchange document produced by `serialize`
reproduces the deck metadata, every card's identifying fields, content and
tags in the original order, and preserves the presence and plain length of
every embedding (so embeddings after the round trip are absent exactly
when they were absent, and of the original — hence correct — length
otherwise). -/
theorem serializer_round_trip (deck : Deck) (cards : List SyncCard) :
    (deserialize (serialize deck cards)).1 = deck ∧
    ((deserialize (serialize deck cards)).2.map fun c =>
        (c.id, c.frontTitle, c.backContent, c.tags, c.favorite)) =
      (cards.map fun c => (c.id, c.frontTitle, c.backContent, c.tags, c.favorite)) ∧
    ((deserialize (serialize deck cards)).2.map fun c =>
        c.contentEmbedding.map fun bv => bv.toPlain.length) =
      (cards.map fun c => c.contentEmbedding.map fun bv => bv.toPlain.length) := by
  refine ⟨rfl, ?_, ?_⟩
  · simp only [serialize, deserialize, List.map_map]
    rfl
  · simp only [serialize, deserialize, List.map_map]
    refine List.map_congr_left fun c _ => ?_
    simp only [Function.comp]
    cases c.contentEmbedding with
    | none => rfl
    | some bv => cases bv <;> rfl

/-- C5: `serialize` emits every embedding as the plain numeric content of
whatever backend representation the card stored (or null when absent), and
`deserialize` accepts a record with an absent embedding, producing a card
with no embedding (needing re-embedding) instead of failing. -/
theorem serializer_backend_neutral :
    (∀ (deck : Deck) (cards : List SyncCard) (i : ℕ),
        ((serialize deck cards).cards[i]?.map fun r => r.embedding) =
          (cards[i]?.map fun c => c.contentEmbedding.map BackendVector.toPlain)) ∧
    (∀ (doc : InterchangeDocument) (i : ℕ) (r : CardRecord),
        doc.cards[i]? = some r → r.embedding = none →
        ((deserialize doc).2[i]?.map fun c => c.contentEmbedding) = some none) := by
  constructor
  · intro deck cards i
    simp only [serialize, List.getElem?_map, Option.map_map]
    rfl
  · intro doc i r hr hre
    simp [deserialize, List.getElem?_map, hr, hre]

/-- Witness for `serializer_backend_neutral`: a document whose only card
carries no embedding deserializes to a card with no embedding. -/
theorem serializer_backend_neutral_witness :
    ((⟨1, "n", "d", [⟨"c1", "f", "b", [], false, none⟩]⟩ :
        InterchangeDocument).cards[0]? = some ⟨"c1", "f", "b", [], false, none⟩) ∧
    ((⟨"c1", "f", "b", [], false, none⟩ : CardRecord).embedding = none) ∧
    ((deserialize ⟨1, "n", "d", [⟨"c1", "f", "b", [], false, none⟩]⟩).2[0]?.map
        fun c => c.contentEmbedding) = some none :=
  ⟨rfl, rfl, serializer_backend_neutral.2 ⟨1, "n", "d", [⟨"c1", "f", "b", [], false, none⟩]⟩
    0 ⟨"c1", "f", "b", [], false, none⟩ rfl rfl⟩

/-- C8: an interchange document that fails schema validation is rejected
with `MalformedDocument` and the store is returned unchanged — no deck row
and no card row is created, even when a prefix of the document's cards is
individually valid. -/
theorem import_malformed_atomic (st : Store) (j : Json) (hmal : parseDoc j = none) :
    importRoute st j = (st, .error .malformedDocument) := by
  simp [importRoute, hmal]

/-- Witness for `import_malformed_atomic`: a document whose first card is
valid and whose second card is malformed creates nothing. -/
theorem import_malformed_atomic_witness :
    parseDoc partiallyValidDocJson = none ∧
    importRoute ⟨0, [], []⟩ partiallyValidDocJson =
      (⟨0, [], []⟩, .error .malformedDocument) :=
  ⟨rfl, import_malformed_atomic ⟨0, [], []⟩ partiallyValidDocJson rfl⟩

/-! ## Search lemmas: the dot-product loop and magnitudes -/

theorem jsGet_eq_val {b : List ℚ} {n : ℕ} (h : n < b.length) :
    jsGet b n = .val (b.getD n 0) := by
  simp [jsGet, List.getElem?_eq_getElem h, List.getD_eq_getElem?_getD]

theorem jsGet_eq_nan {b : List ℚ} {n : ℕ} (h : b.length ≤ n) :
    jsGet b n = .nan := by
  simp [jsGet, List.getElem?_eq_none h]

theorem dotJ_aux (a b : List ℚ) (n : ℕ) :
    (List.range n).foldl (fun sum i => sum + .val (a.getD i 0) * jsGet b i) (.val 0) =
      if n ≤ b.length then .val (∑ i ∈ Finset.range n, a.getD i 0 * b.getD i 0)
      else .nan := by
  induction n with
  | zero => simp
  | succ n ih =>
    rw [List.range_succ, List.foldl_append, ih]
    simp only [List.foldl_cons, List.foldl_nil]
    rcases le_or_lt (n + 1) b.length with h | h
    · rw [if_pos (Nat.le_of_succ_le h), if_pos h, jsGet_eq_val h]
      simp [Finset.sum_range_succ]
    · rcases le_or_lt n b.length with h2 | h2
      · rw [if_pos h2, if_neg (by omega : ¬(n + 1 ≤ b.length)),
          jsGet_eq_nan (by omega : b.length ≤ n)]
        simp
      · rw [if_neg (by omega : ¬(n ≤ b.length)), if_neg (by omega : ¬(n + 1 ≤ b.length))]
        simp

theorem dotJ_eq (a b : List ℚ) :
    dotJ a b = if a.length ≤ b.length then .val (dotQ a b) else .nan := by
  rw [dotJ, dotJ_aux]
  rfl

theorem sumSq_nonneg (v : List ℚ) : 0 ≤ sumSq v := by
  induction v with
  | nil => simp [sumSq]
  | cons x xs ih =>
    simp only [sumSq, List.map_cons, List.sum_cons] at ih ⊢
    have := mul_self_nonneg x
    linarith

theorem sumSq_eq_zero_iff (v : List ℚ) : sumSq v = 0 ↔ ∀ x ∈ v, x = 0 := by
  induction v with
  | nil => simp [sumSq]
  | cons x xs ih =>
    simp only [sumSq, List.map_cons, List.sum_cons, List.mem_cons] at ih ⊢
    have hx := mul_self_nonneg x
    have hxs := sumSq_nonneg xs
    simp only [sumSq] at hxs
    constructor
    · intro h
      have h1 : x * x = 0 := by linarith
      have h2 : (xs.map fun x => x * x).sum = 0 := by linarith
      have hx0 : x = 0 := by
        have := mul_self_eq_zero.mp h1
        exact this
      exact fun y hy => hy.elim (fun he => he ▸ hx0) (ih.mp h2 y)
    · intro h
      have hx0 : x = 0 := h x (Or.inl rfl)
      have : (xs.map fun x => x * x).sum = 0 := ih.mpr fun y hy => h y (Or.inr hy)
      simp [hx0, this]

theorem getD_eq_zero_of_sumSq_zero {v : List ℚ} (h : sumSq v = 0) (i : ℕ) :
    v.getD i 0 = 0 := by
  rcases lt_or_ge i v.length with hi | hi
  · have hmem : v.getD i 0 ∈ v := by
      rw [List.getD_eq_getElem?_getD, List.getElem?_eq_getElem hi]
      exact List.getElem_mem hi
    exact (sumSq_eq_zero_iff v).mp h _ hmem
  · rw [List.getD_eq_getElem?_getD, List.getElem?_eq_none hi]
    rfl

theorem dotQ_eq_zero_of_left {a b : List ℚ} (h : sumSq a = 0) : dotQ a b = 0 := by
  unfold dotQ
  refine Finset.sum_eq_zero fun i _ => ?_
  rw [getD_eq_zero_of_sumSq_zero h i, zero_mul]

theorem dotQ_eq_zero_of_right {a b : List ℚ} (h : sumSq b = 0) : dotQ a b = 0 := by
  unfold dotQ
  refine Finset.sum_eq_zero fun i _ => ?_
  rw [getD_eq_zero_of_sumSq_zero h i, mul_zero]

/-! ## Characterization of `cosineSimilarity` -/

theorem cosine_of_short {a b : List ℚ} (h : b.length < a.length) :
    cosineSimilarity a b = .nan := by
  unfold cosineSimilarity
  rw [dotJ_eq, if_neg (by omega : ¬(a.length ≤ b.length))]

theorem cosine_eq_of_le {a b : List ℚ} (hl : a.length ≤ b.length) :
    cosineSimilarity a b =
      (if sumSq a * sumSq b = 0 then
        (if dotQ a b = 0 then Score.nan else if 0 < dotQ a b then Score.inf else Score.ninf)
      else Score.fin (dotQ a b) (sumSq a * sumSq b)) := by
  unfold cosineSimilarity
  rw [dotJ_eq, if_pos hl]

theorem cosine_of_zero_magnitude {a b : List ℚ} (h : sumSq a = 0 ∨ sumSq b = 0) :
    cosineSimilarity a b = .nan := by
  rcases le_or_lt a.length b.length with hl | hl
  · have hd : dotQ a b = 0 := by
      rcases h with h | h
      exacts [dotQ_eq_zero_of_left h, dotQ_eq_zero_of_right h]
    have hs : sumSq a * sumSq b = 0 := by
      rcases h with h | h <;> simp [h]
    rw [cosine_eq_of_le hl, if_pos hs, if_pos hd]
  · exact cosine_of_short hl

theorem cosine_fin_spec {a b : List ℚ} {d s : ℚ} (h : cosineSimilarity a b = .fin d s) :
    a.length ≤ b.length ∧ d = dotQ a b ∧ s = sumSq a * sumSq b ∧ 0 < s := by
  by_cases hl : a.length ≤ b.length
  · rw [cosine_eq_of_le hl] at h
    by_cases hs : sumSq a * sumSq b = 0
    · exfalso
      rw [if_pos hs] at h
      rcases eq_or_ne (dotQ a b) 0 with hd | hd
      · rw [if_pos hd] at h
        exact Score.noConfusion h
      · rw [if_neg hd] at h
        rcases lt_or_le 0 (dotQ a b) with hlt | hle
        · rw [if_pos hlt] at h
          exact Score.noConfusion h
        · rw [if_neg (not_lt.mpr hle)] at h
          exact Score.noConfusion h
    · simp only [if_neg hs, Score.fin.injEq] at h
      obtain ⟨hd, hs2⟩ := h
      refine ⟨hl, hd.symm, hs2.symm, ?_⟩
      rw [← hs2]
      exact lt_of_le_of_ne (mul_nonneg (sumSq_nonneg a) (sumSq_nonneg b)) (Ne.symm hs)
  · rw [cosine_of_short (by omega)] at h
    simp at h

/-! ## The order on scores and its real meaning -/

theorem sgnSq_div_lt_iff {d1 s1 d2 s2 : ℚ} (h1 : 0 < s1) (h2 : 0 < s2) :
    sgnSq d1 / s1 < sgnSq d2 / s2 ↔
      (d1 : ℝ) / Real.sqrt (s1 : ℝ) < (d2 : ℝ) / Real.sqrt (s2 : ℝ) := by
  have h1R : (0 : ℝ) < (s1 : ℝ) := by exact_mod_cast h1
  have h2R : (0 : ℝ) < (s2 : ℝ) := by exact_mod_cast h2
  have hr1 : 0 < Real.sqrt (s1 : ℝ) := Real.sqrt_pos.mpr h1R
  have hr2 : 0 < Real.sqrt (s2 : ℝ) := Real.sqrt_pos.mpr h2R
  have hr1sq : Real.sqrt (s1 : ℝ) * Real.sqrt (s1 : ℝ) = (s1 : ℝ) :=
    Real.mul_self_sqrt h1R.le
  have hr2sq : Real.sqrt (s2 : ℝ) * Real.sqrt (s2 : ℝ) = (s2 : ℝ) :=
    Real.mul_self_sqrt h2R.le
  rw [div_lt_div_iff₀ hr1 hr2, div_lt_div_iff₀ h1 h2]
  rcases le_or_lt 0 d1 with hd1 | hd1 <;> rcases le_or_lt 0 d2 with hd2 | hd2
  · rw [sgnSq, sgnSq, if_pos hd1, if_pos hd2]
    have hd1R : (0 : ℝ) ≤ (d1 : ℝ) := by exact_mod_cast hd1
    have hd2R : (0 : ℝ) ≤ (d2 : ℝ) := by exact_mod_cast hd2
    rw [show ((d1 * d1 * s2 : ℚ) < d2 * d2 * s1 ↔
        ((d1 : ℝ) * (d1 : ℝ) * (s2 : ℝ) < (d2 : ℝ) * (d2 : ℝ) * (s1 : ℝ))) by
      exact_mod_cast Iff.rfl]
    rw [mul_self_lt_mul_self_iff (mul_nonneg hd1R hr2.le) (mul_nonneg hd2R hr1.le)]
    have e1 : (d1 : ℝ) * Real.sqrt s2 * ((d1 : ℝ) * Real.sqrt s2) =
        (d1 : ℝ) * (d1 : ℝ) * (s2 : ℝ) := by
      rw [show (d1 : ℝ) * Real.sqrt s2 * ((d1 : ℝ) * Real.sqrt s2) =
        (d1 : ℝ) * (d1 : ℝ) * (Real.sqrt s2 * Real.sqrt s2) from by ring, hr2sq]
    have e2 : (d2 : ℝ) * Real.sqrt s1 * ((d2 : ℝ) * Real.sqrt s1) =
        (d2 : ℝ) * (d2 : ℝ) * (s1 : ℝ) := by
      rw [show (d2 : ℝ) * Real.sqrt s1 * ((d2 : ℝ) * Real.sqrt s1) =
        (d2 : ℝ) * (d2 : ℝ) * (Real.sqrt s1 * Real.sqrt s1) from by ring, hr1sq]
    rw [e1, e2]
  · rw [sgnSq, sgnSq, if_pos hd1, if_neg (not_le.mpr hd2)]
    have hd1R : (0 : ℝ) ≤ (d1 : ℝ) := by exact_mod_cast hd1
    have hd2R : (d2 : ℝ) < 0 := by exact_mod_cast hd2
    refine iff_of_false (fun hc => ?_) (fun hc => ?_)
    · have ha : 0 ≤ d1 * d1 * s2 := mul_nonneg (mul_self_nonneg d1) h2.le
      have hb : -(d2 * d2) * s1 < 0 := by
        have hpos : 0 < d2 * d2 := mul_self_pos.mpr (ne_of_lt hd2)
        nlinarith
      linarith
    · have hx : (0 : ℝ) ≤ (d1 : ℝ) * Real.sqrt s2 := mul_nonneg hd1R hr2.le
      have hy : (d2 : ℝ) * Real.sqrt s1 < 0 := mul_neg_of_neg_of_pos hd2R hr1
      linarith
  · rw [sgnSq, sgnSq, if_neg (not_le.mpr hd1), if_pos hd2]
    have hd1R : (d1 : ℝ) < 0 := by exact_mod_cast hd1
    have hd2R : (0 : ℝ) ≤ (d2 : ℝ) := by exact_mod_cast hd2
    refine iff_of_true ?_ ?_
    · have ha : -(d1 * d1) * s2 < 0 := by
        have hpos : 0 < d1 * d1 := mul_self_pos.mpr (ne_of_lt hd1)
        nlinarith
      have hb : 0 ≤ d2 * d2 * s1 := mul_nonneg (mul_self_nonneg d2) h1.le
      linarith
    · have hx : (d1 : ℝ) * Real.sqrt s2 < 0 := mul_neg_of_neg_of_pos hd1R hr2
      have hy : (0 : ℝ) ≤ (d2 : ℝ) * Real.sqrt s1 := mul_nonneg hd2R hr1.le
      linarith
  · rw [sgnSq, sgnSq, if_neg (not_le.mpr hd1), if_neg (not_le.mpr hd2)]
    have hd1R : (d1 : ℝ) < 0 := by exact_mod_cast hd1
    have hd2R : (d2 : ℝ) < 0 := by exact_mod_cast hd2
    rw [show ((-(d1 * d1) * s2 : ℚ) < -(d2 * d2) * s1 ↔
        (-((d1 : ℝ) * (d1 : ℝ)) * (s2 : ℝ) < -((d2 : ℝ) * (d2 : ℝ)) * (s1 : ℝ))) by
      exact_mod_cast Iff.rfl]
    have e1 : -(d2 : ℝ) * Real.sqrt s1 * (-(d2 : ℝ) * Real.sqrt s1) =
        (d2 : ℝ) * (d2 : ℝ) * (s1 : ℝ) := by
      rw [show -(d2 : ℝ) * Real.sqrt s1 * (-(d2 : ℝ) * Real.sqrt s1) =
        (d2 : ℝ) * (d2 : ℝ) * (Real.sqrt s1 * Real.sqrt s1) from by ring, hr1sq]
    have e2 : -(d1 : ℝ) * Real.sqrt s2 * (-(d1 : ℝ) * Real.sqrt s2) =
        (d1 : ℝ) * (d1 : ℝ) * (s2 : ℝ) := by
      rw [show -(d1 : ℝ) * Real.sqrt s2 * (-(d1 : ℝ) * Real.sqrt s2) =
        (d1 : ℝ) * (d1 : ℝ) * (Real.sqrt s2 * Real.sqrt s2) from by ring, hr2sq]
    constructor
    · intro h
      have hsq : -(d2 : ℝ) * Real.sqrt s1 * (-(d2 : ℝ) * Real.sqrt s1) <
          -(d1 : ℝ) * Real.sqrt s2 * (-(d1 : ℝ) * Real.sqrt s2) := by
        rw [e1, e2]; linarith
      have hlt := (mul_self_lt_mul_self_iff (mul_nonneg (neg_nonneg.mpr hd2R.le) hr1.le)
        (mul_nonneg (neg_nonneg.mpr hd1R.le) hr2.le)).mpr hsq
      nlinarith [hlt]
    · intro h
      have hlt : -(d2 : ℝ) * Real.sqrt s1 < -(d1 : ℝ) * Real.sqrt s2 := by nlinarith [h]
      have hsq := (mul_self_lt_mul_self_iff (mul_nonneg (neg_nonneg.mpr hd2R.le) hr1.le)
        (mul_nonneg (neg_nonneg.mpr hd1R.le) hr2.le)).mp hlt
      rw [e1, e2] at hsq
      linarith

theorem sgnSq_div_le_iff {d1 s1 d2 s2 : ℚ} (h1 : 0 < s1) (h2 : 0 < s2) :
    sgnSq d1 / s1 ≤ sgnSq d2 / s2 ↔
      (d1 : ℝ) / Real.sqrt (s1 : ℝ) ≤ (d2 : ℝ) / Real.sqrt (s2 : ℝ) := by
  rw [← not_lt, ← not_lt, sgnSq_div_lt_iff h2 h1]

theorem key_le_key_iff {d1 s1 d2 s2 : ℚ} (h1 : 0 < s1) (h2 : 0 < s2) :
    (Score.fin d1 s1).key ≤ (Score.fin d2 s2).key ↔
      (d1 : ℝ) / Real.sqrt (s1 : ℝ) ≤ (d2 : ℝ) / Real.sqrt (s2 : ℝ) := by
  simpa [Score.key] using sgnSq_div_le_iff h1 h2

theorem gtQ_fin_iff {d s t : ℚ} (hs : 0 < s) :
    Score.gtQ (.fin d s) t = true ↔ (t : ℝ) < (d : ℝ) / Real.sqrt (s : ℝ) := by
  have hkey : ((t : ℝ) < (d : ℝ) / Real.sqrt (s : ℝ)) ↔ sgnSq t / 1 < sgnSq d / s := by
    rw [sgnSq_div_lt_iff one_pos hs, Rat.cast_one, Real.sqrt_one, div_one]
  rw [hkey, div_one, lt_div_iff₀ hs]
  simp only [Score.gtQ]
  rcases le_or_lt 0 t with ht | ht
  · rw [if_pos ht, sgnSq, if_pos ht]
    simp only [Bool.and_eq_true, decide_eq_true_eq]
    rcases lt_trichotomy d 0 with hd | hd | hd
    · rw [sgnSq, if_neg (not_le.mpr hd)]
      refine iff_of_false (fun hcon => ?_) (fun hcon => ?_)
      · linarith [hcon.1]
      · nlinarith [mul_self_pos.mpr (ne_of_lt hd), mul_nonneg (mul_self_nonneg t) hs.le]
    · subst hd
      rw [sgnSq, if_pos le_rfl]
      refine iff_of_false (by simp) (fun hcon => ?_)
      nlinarith [mul_nonneg (mul_self_nonneg t) hs.le]
    · rw [sgnSq, if_pos hd.le]
      exact and_iff_right hd
  · rw [if_neg (not_le.mpr ht), sgnSq, if_neg (not_le.mpr ht)]
    simp only [Bool.or_eq_true, decide_eq_true_eq]
    rcases le_or_lt 0 d with hd | hd
    · rw [sgnSq, if_pos hd]
      refine iff_of_true (Or.inl hd) ?_
      nlinarith [mul_self_pos.mpr (ne_of_lt ht), hs, mul_self_nonneg d]
    · rw [sgnSq, if_neg (not_le.mpr hd)]
      constructor
      · rintro (h0 | hlt)
        · exact absurd h0 (not_le.mpr hd)
        · linarith
      · intro hcon
        exact Or.inr (by linarith)

theorem before_trans (x y z : Score) (hxy : Score.before x y = true)
    (hyz : Score.before y z = true) : Score.before x z = true := by
  simp only [Score.before, Bool.or_eq_true, Bool.and_eq_true, decide_eq_true_eq] at *
  rcases hxy with h1 | ⟨h1, k1⟩ <;> rcases hyz with h2 | ⟨h2, k2⟩
  · exact Or.inl (h1.trans h2)
  · exact Or.inl (h2 ▸ h1)
  · exact Or.inl (h1 ▸ h2)
  · exact Or.inr ⟨h1.trans h2, le_trans k2 k1⟩

theorem before_total (x y : Score) :
    Score.before x y = true ∨ Score.before y x = true := by
  simp only [Score.before, Bool.or_eq_true, Bool.and_eq_true, decide_eq_true_eq]
  rcases Nat.lt_trichotomy x.cls y.cls with h | h | h
  · exact Or.inl (Or.inl h)
  · rcases le_total y.key x.key with k | k
    · exact Or.inl (Or.inr ⟨h, k⟩)
    · exact Or.inr (Or.inr ⟨h.symm, k⟩)
  · exact Or.inr (Or.inl h)

/-- The cosine similarity is never an infinity: whenever the denominator is
zero, so is the dot product, giving `0 / 0` (NaN). -/
theorem cosine_fin_or_nan (a b : List ℚ) :
    cosineSimilarity a b = .nan ∨
      ∃ d s, cosineSimilarity a b = .fin d s ∧ 0 < s := by
  rcases le_or_lt a.length b.length with hl | hl
  · rw [cosine_eq_of_le hl]
    by_cases hs : sumSq a * sumSq b = 0
    · rw [if_pos hs]
      have hd : dotQ a b = 0 := by
        rcases mul_eq_zero.mp hs with h | h
        exacts [dotQ_eq_zero_of_left h, dotQ_eq_zero_of_right h]
      rw [if_pos hd]
      exact Or.inl rfl
    · rw [if_neg hs]
      exact Or.inr ⟨_, _, rfl,
        lt_of_le_of_ne (mul_nonneg (sumSq_nonneg a) (sumSq_nonneg b)) (Ne.symm hs)⟩
  · exact Or.inl (cosine_of_short hl)

/-- Every search result is one of the candidates, and its score passed the
threshold comparison. -/
theorem mem_semanticSearch {g : String → List ℚ} {query : String} {cards : List Card}
    {t : ℚ} {c : Card} (hc : c ∈ semanticSearch g query cards t) :
    c ∈ cards ∧ (cosineSimilarity (g query) c.content_embedding).gtQ t = true := by
  unfold semanticSearch at hc
  simp only [List.mem_map] at hc
  obtain ⟨r, hr, rfl⟩ := hc
  rw [List.mem_mergeSort, List.mem_filter] at hr
  obtain ⟨hrm, hrp⟩ := hr
  simp only [List.mem_map] at hrm
  obtain ⟨card, hcard, rfl⟩ := hrm
  exact ⟨hcard, hrp⟩

/-- Evaluation rule for concrete searches: when the filtered candidate list
is already sorted, the stable sort leaves it unchanged. -/
theorem semanticSearch_of_sorted (g : String → List ℚ) (query : String)
    (cards : List Card) (t : ℚ)
    (h : (((cards.map fun card =>
        (card, cosineSimilarity (g query) card.content_embedding)).filter
        fun r => r.2.gtQ t)).Pairwise fun a b => Score.before a.2 b.2 = true) :
    semanticSearch g query cards t =
      (((cards.map fun card =>
        (card, cosineSimilarity (g query) card.content_embedding)).filter
        fun r => r.2.gtQ t)).map fun r => r.1 := by
  unfold semanticSearch
  dsimp only
  rw [List.mergeSort_of_sorted h]

/-! ## Concrete evaluation lemmas

Rational arithmetic does not reduce inside `decide`, so concrete runs of
the search pipeline are evaluated through `norm_num` and the sortedness
rule `semanticSearch_of_sorted`. -/

theorem cosine_one_one : cosineSimilarity [(1 : ℚ)] [1] = .fin 1 1 := by
  rw [cosine_eq_of_le (by decide)]
  norm_num [sumSq, dotQ, Finset.sum_range_one]

theorem cosine_one_onezero : cosineSimilarity [(1 : ℚ)] [1, 0] = .fin 1 1 := by
  rw [cosine_eq_of_le (by decide)]
  norm_num [sumSq, dotQ, Finset.sum_range_one]

theorem gtQ_fin11_zero : Score.gtQ (.fin 1 1) 0 = true := by
  norm_num [Score.gtQ]

theorem before_fin11 : Score.before (.fin 1 1) (.fin 1 1) = true := by
  have h : (decide (Score.key (.fin 1 1) ≤ Score.key (.fin 1 1))) = true :=
    decide_eq_true (le_refl _)
  simp [Score.before, Score.cls, h]

theorem search_single_eval :
    semanticSearch (fun _ => [(1 : ℚ)]) "q" [⟨"1", [1]⟩] 0 = [⟨"1", [1]⟩] := by
  unfold semanticSearch
  dsimp only
  simp only [List.map_cons, List.map_nil]
  rw [show cosineSimilarity [(1 : ℚ)] [1] = .fin 1 1 from cosine_one_one]
  simp [List.filter_cons, gtQ_fin11_zero]

theorem search_dim_eval :
    semanticSearch (fun _ => [(1 : ℚ)]) "q" [⟨"c", [1, 0]⟩] 0 = [⟨"c", [1, 0]⟩] := by
  unfold semanticSearch
  dsimp only
  simp only [List.map_cons, List.map_nil]
  rw [show cosineSimilarity [(1 : ℚ)] [1, 0] = .fin 1 1 from cosine_one_onezero]
  simp [List.filter_cons, gtQ_fin11_zero]

/-! ## Claims C10, C9, C2 -/

/-- C10: a zero-magnitude query or candidate vector makes
`cosineSimilarity` divide zero by zero, yielding NaN; NaN compares false
against every threshold, so such a candidate is silently excluded from the
search output (no error is raised — the functions are total). -/
theorem cosine_zero_magnitude_nan :
    (∀ a b : List ℚ, sumSq a = 0 ∨ sumSq b = 0 →
        cosineSimilarity a b = .nan ∧ ∀ t : ℚ, Score.gtQ .nan t = false) ∧
    (∀ (g : String → List ℚ) (query : String) (cards : List Card) (t : ℚ) (c : Card),
        c ∈ semanticSearch g query cards t →
        sumSq (g query) ≠ 0 ∧ sumSq c.content_embedding ≠ 0) := by
  constructor
  · intro a b h
    exact ⟨cosine_of_zero_magnitude h, fun _ => rfl⟩
  · intro g query cards t c hc
    have h2 := (mem_semanticSearch hc).2
    constructor
    · intro hz
      rw [cosine_of_zero_magnitude (Or.inl hz)] at h2
      simp [Score.gtQ] at h2
    · intro hz
      rw [cosine_of_zero_magnitude (Or.inr hz)] at h2
      simp [Score.gtQ] at h2

/-- Witness for `cosine_zero_magnitude_nan` at the zero vector. -/
theorem cosine_zero_magnitude_nan_witness :
    sumSq [(0 : ℚ), 0] = 0 ∧
    cosineSimilarity [(0 : ℚ), 0] [1] = .nan ∧
    Score.gtQ .nan 0 = false :=
  ⟨by norm_num [sumSq],
    (cosine_zero_magnitude_nan.1 [(0 : ℚ), 0] [1] (Or.inl (by norm_num [sumSq]))).1,
    (cosine_zero_magnitude_nan.1 [(0 : ℚ), 0] [1] (Or.inl (by norm_num [sumSq]))).2 0⟩

/-- C9: the search is pure.  With the mutation behaviour of every array
operation tracked, the candidates array after the call is the array that
was passed in; the tracked call agrees with the pure denotation (so two
calls with the same arguments return the same result); and every returned
card is one of the candidates — no card object is fabricated or
modified. -/
theorem semanticSearch_pure (g : String → List ℚ) (query : String)
    (cards : List Card) (t : ℚ) :
    (semanticSearchTracked g query cards t).2 = cards ∧
    (semanticSearchTracked g query cards t).1 = semanticSearch g query cards t ∧
    (∀ c ∈ (semanticSearchTracked g query cards t).1, c ∈ cards) := by
  refine ⟨rfl, rfl, fun c hc => ?_⟩
  exact (mem_semanticSearch (show c ∈ semanticSearch g query cards t from hc)).1

/-- Witness for `semanticSearch_pure` on a one-candidate search. -/
theorem semanticSearch_pure_witness :
    (⟨"1", [1]⟩ : Card) ∈ (semanticSearchTracked (fun _ => [(1 : ℚ)]) "q" [⟨"1", [1]⟩] 0).1 ∧
    (⟨"1", [1]⟩ : Card) ∈ ([⟨"1", [1]⟩] : List Card) := by
  have hmem : (⟨"1", [1]⟩ : Card) ∈ semanticSearch (fun _ => [(1 : ℚ)]) "q" [⟨"1", [1]⟩] 0 := by
    rw [search_single_eval]
    exact List.mem_singleton_self _
  exact ⟨hmem, (semanticSearch_pure (fun _ => [(1 : ℚ)]) "q" [⟨"1", [1]⟩] 0).2.2 _ hmem⟩

/-- C2: the claim, as stated, fails.  There is no dimension guard in the
code: a candidate whose vector is longer than the query vector is scored
over the query-length prefix and appears in the output (here with
threshold 0). -/
theorem semanticSearch_dim_cex :
    semanticSearch (fun _ => [1]) "q" [⟨"c", [1, 0]⟩] 0 = [⟨"c", [1, 0]⟩] ∧
    ((fun _ : String => [(1 : ℚ)]) "q").length ≠
      (⟨"c", [(1 : ℚ), 0]⟩ : Card).content_embedding.length := by
  exact ⟨search_dim_eval, by decide⟩

/-- C2 (amended): a candidate whose vector is shorter than the query
vector never appears in the output (its dot product hits an undefined
index and becomes NaN), but longer vectors are not filtered out. -/
theorem semanticSearch_short_guard (g : String → List ℚ) (query : String)
    (cards : List Card) (t : ℚ) (c : Card)
    (hc : c ∈ semanticSearch g query cards t) :
    (g query).length ≤ c.content_embedding.length := by
  have h2 := (mem_semanticSearch hc).2
  rcases cosine_fin_or_nan (g query) c.content_embedding with hn | ⟨d, s, hf, _⟩
  · rw [hn] at h2
    simp [Score.gtQ] at h2
  · exact (cosine_fin_spec hf).1

/-- Witness for `semanticSearch_short_guard` on a one-candidate search. -/
theorem semanticSearch_short_guard_witness :
    (⟨"1", [1]⟩ : Card) ∈ semanticSearch (fun _ => [(1 : ℚ)]) "q" [⟨"1", [1]⟩] 0 ∧
    ((fun _ : String => [(1 : ℚ)]) "q").length ≤
      (⟨"1", [(1 : ℚ)]⟩ : Card).content_embedding.length := by
  have hmem : (⟨"1", [1]⟩ : Card) ∈ semanticSearch (fun _ => [(1 : ℚ)]) "q" [⟨"1", [1]⟩] 0 := by
    rw [search_single_eval]
    exact List.mem_singleton_self _
  exact ⟨hmem, semanticSearch_short_guard _ _ _ _ _ hmem⟩

/-! ## Claim C1 -/

theorem search_tie_eval :
    semanticSearch (fun _ => [(1 : ℚ)]) "q" [⟨"2", [1]⟩, ⟨"1", [1]⟩] 0 =
      [⟨"2", [1]⟩, ⟨"1", [1]⟩] := by
  unfold semanticSearch
  dsimp only
  simp only [List.map_cons, List.map_nil]
  rw [show cosineSimilarity [(1 : ℚ)] [1] = .fin 1 1 from cosine_one_one]
  simp only [List.filter_cons, gtQ_fin11_zero, if_true, List.filter_nil]
  rw [List.mergeSort_of_sorted (by simp [List.pairwise_cons, before_fin11])]
  simp

theorem search_tie_eval_swapped :
    semanticSearch (fun _ => [(1 : ℚ)]) "q" [⟨"1", [1]⟩, ⟨"2", [1]⟩] 0 =
      [⟨"1", [1]⟩, ⟨"2", [1]⟩] := by
  unfold semanticSearch
  dsimp only
  simp only [List.map_cons, List.map_nil]
  rw [show cosineSimilarity [(1 : ℚ)] [1] = .fin 1 1 from cosine_one_one]
  simp only [List.filter_cons, gtQ_fin11_zero, if_true, List.filter_nil]
  rw [List.mergeSort_of_sorted (by simp [List.pairwise_cons, before_fin11])]
  simp

/-- C1: the claim, as stated, fails.  Two distinct candidates with equal
cosine scores are returned in candidate-list order whichever way the
candidate list is ordered, so equal scores are not ordered by candidate
id; and `semanticSearch` has no limit parameter at all. -/
theorem semanticSearch_tie_cex :
    semanticSearch (fun _ => [(1 : ℚ)]) "q" [⟨"2", [1]⟩, ⟨"1", [1]⟩] 0 =
      [⟨"2", [1]⟩, ⟨"1", [1]⟩] ∧
    semanticSearch (fun _ => [(1 : ℚ)]) "q" [⟨"1", [1]⟩, ⟨"2", [1]⟩] 0 =
      [⟨"1", [1]⟩, ⟨"2", [1]⟩] ∧
    (⟨"1", [(1 : ℚ)]⟩ : Card) ≠ (⟨"2", [(1 : ℚ)]⟩ : Card) ∧
    cosineSimilarity [(1 : ℚ)] (⟨"2", [(1 : ℚ)]⟩ : Card).content_embedding =
      cosineSimilarity [(1 : ℚ)] (⟨"1", [(1 : ℚ)]⟩ : Card).content_embedding :=
  ⟨search_tie_eval, search_tie_eval_swapped, by decide, rfl⟩

theorem score_of_mem_filtered {g : String → List ℚ} {query : String}
    {cards : List Card} {t : ℚ} {w : Card × Score}
    (hw : w ∈ (cards.map fun card =>
        (card, cosineSimilarity (g query) card.content_embedding)).filter
        fun r => r.2.gtQ t) :
    w.2 = cosineSimilarity (g query) w.1.content_embedding := by
  have hm := (List.mem_filter.mp hw).1
  simp only [List.mem_map] at hm
  obtain ⟨card, _, rfl⟩ := hm
  rfl

/-- C1 (amended): the search returns exactly the candidates whose score is
strictly above the threshold — no limit is applied — sorted weakly
descending by the real cosine score `dot / (√sA · √sB)`; every returned
candidate has a finite score strictly above the threshold.  Ties keep
candidate-list order (see the stable-sort counterexample), not id
order. -/
theorem semanticSearch_ranking (g : String → List ℚ) (query : String)
    (cards : List Card) (t : ℚ) :
    (semanticSearch g query cards t).Perm
      (cards.filter fun c => (cosineSimilarity (g query) c.content_embedding).gtQ t) ∧
    ((semanticSearch g query cards t).Pairwise fun c1 c2 =>
      ∀ d1 s1 d2 s2,
        cosineSimilarity (g query) c1.content_embedding = .fin d1 s1 →
        cosineSimilarity (g query) c2.content_embedding = .fin d2 s2 →
        (d2 : ℝ) / Real.sqrt (s2 : ℝ) ≤ (d1 : ℝ) / Real.sqrt (s1 : ℝ)) ∧
    (∀ c ∈ semanticSearch g query cards t,
      cosineSimilarity (g query) c.content_embedding ≠ .nan ∧
      ∀ d s, cosineSimilarity (g query) c.content_embedding = .fin d s →
        0 < s ∧ (t : ℝ) < (d : ℝ) / Real.sqrt (s : ℝ)) := by
  refine ⟨?_, ?_, ?_⟩
  · have hperm : ((((cards.map fun card =>
        (card, cosineSimilarity (g query) card.content_embedding)).filter
        fun r => r.2.gtQ t)).mergeSort fun a b => Score.before a.2 b.2).Perm
        ((cards.map fun card =>
        (card, cosineSimilarity (g query) card.content_embedding)).filter
        fun r => r.2.gtQ t) :=
      List.mergeSort_perm _ _
    have hmapped := hperm.map fun r : Card × Score => r.1
    refine hmapped.trans ?_
    rw [List.filter_map, List.map_map]
    exact (List.map_id _).symm ▸ List.Perm.refl _
  · have hs := @List.sorted_mergeSort (Card × Score)
      (fun a b => Score.before a.2 b.2)
      (fun a b c hab hbc => before_trans _ _ _ hab hbc)
      (fun a b => by rcases before_total a.2 b.2 with h | h <;> simp [h])
      ((cards.map fun card =>
        (card, cosineSimilarity (g query) card.content_embedding)).filter
        fun r => r.2.gtQ t)
    show (List.map _ _).Pairwise _
    rw [List.pairwise_map]
    refine List.Pairwise.imp_of_mem ?_ hs
    intro w1 w2 hw1 hw2 hb
    intro d1 s1 d2 s2 h1 h2
    have hsc1 : w1.2 = cosineSimilarity (g query) w1.1.content_embedding :=
      score_of_mem_filtered (List.mem_mergeSort.mp hw1)
    have hsc2 : w2.2 = cosineSimilarity (g query) w2.1.content_embedding :=
      score_of_mem_filtered (List.mem_mergeSort.mp hw2)
    rw [hsc1, h1, hsc2, h2] at hb
    have hs1 : 0 < s1 := (cosine_fin_spec h1).2.2.2
    have hs2 : 0 < s2 := (cosine_fin_spec h2).2.2.2
    simp only [Score.before, Score.cls, Bool.or_eq_true, Bool.and_eq_true,
      decide_eq_true_eq] at hb
    rcases hb with hb | ⟨-, hb⟩
    · omega
    · exact (key_le_key_iff hs2 hs1).mp hb
  · intro c hc
    have h2 := (mem_semanticSearch hc).2
    refine ⟨fun heq => ?_, fun d s hfin => ?_⟩
    · rw [heq] at h2
      simp [Score.gtQ] at h2
    · have hspos : 0 < s := (cosine_fin_spec hfin).2.2.2
      rw [hfin] at h2
      exact ⟨hspos, (gtQ_fin_iff hspos).mp h2⟩

/-- Witness for `semanticSearch_ranking` on a one-candidate search. -/
theorem semanticSearch_ranking_witness :
    (⟨"1", [1]⟩ : Card) ∈ semanticSearch (fun _ => [(1 : ℚ)]) "q" [⟨"1", [1]⟩] 0 ∧
    (0 < (1 : ℚ) ∧ ((0 : ℚ) : ℝ) < ((1 : ℚ) : ℝ) / Real.sqrt ((1 : ℚ) : ℝ)) := by
  have hmem : (⟨"1", [1]⟩ : Card) ∈ semanticSearch (fun _ => [(1 : ℚ)]) "q" [⟨"1", [1]⟩] 0 := by
    rw [search_single_eval]
    exact List.mem_singleton_self _
  exact ⟨hmem, ((semanticSearch_ranking (fun _ => [(1 : ℚ)]) "q" [⟨"1", [1]⟩] 0).2.2 _
    hmem).2 1 1 cosine_one_one⟩

end PromptDec
